import Mathlib

/-!
# Verification of the MinRoot VDF example (advice generator and step-circuit encoder)

This file gives a shallow embedding of `src/examples/minroot.rs`:

* `MinRootIteration` / `MinRootIteration.new` embed the advice generator that runs the
  MinRoot delay function (`x_{i+1} = (x_i + y_i)^e`, `y_{i+1} = x_i + (i+1)`) over the
  scalar field, modelled as `ZMod p` for the prime order `p` of the group's scalar field.
* `CSState`, `AllocatedNum`, `CSState.alloc`, `CSState.enforce`, `AllocatedNum.square` embed
  the bellpepper constraint-system interface that `MinRootCircuit::synthesize` uses, and
  `MinRootCircuit.synthesize` embeds the step-circuit encoder itself.

The deployed field (the Vesta scalar field, i.e. the Pasta prime
`0x40000000000000000000000000000000224698fc094cf91b992d30ed00000001`) satisfies
`p % 5 = 2`; theorems that depend on the arithmetic of the precomputed exponent
carry `p.Prime`, `p % 5 = 2`, `5 < p` as hypotheses, which hold for that prime.
-/

namespace NovaMinRoot

/-- Binary modular exponentiation with explicit fuel, embedding `BigUint::modpow`.
The fuel only has to dominate the number of halvings of the exponent, so calling it
with the exponent itself as fuel always suffices. -/
def modPowAux (m b : ℕ) : ℕ → ℕ → ℕ
  | 0, _ => 1 % m
  | fuel + 1, e =>
    if e = 0 then 1 % m
    else
      let r := modPowAux m ((b * b) % m) fuel (e / 2)
      if e % 2 = 1 then (r * b) % m else r

/-- `modPow b e m = b^e mod m`, embedding `b.modpow(e, m)` from `num_bigint`. -/
def modPow (b e m : ℕ) : ℕ :=
  modPowAux m (b % m) e e

theorem modPowAux_correct (m : ℕ) :
    ∀ fuel e b, e ≤ fuel → modPowAux m b fuel e = b ^ e % m := by
  intro fuel
  induction fuel with
  | zero =>
    intro e b he
    interval_cases e
    simp [modPowAux]
  | succ n ih =>
    intro e b he
    by_cases h0 : e = 0
    · simp [modPowAux, h0]
    · have hdiv : e / 2 ≤ n := by omega
      have hrec := ih (e / 2) ((b * b) % m) hdiv
      have hbb : ((b * b) % m) ^ (e / 2) % m = (b * b) ^ (e / 2) % m := by
        rw [Nat.pow_mod, Nat.mod_mod_of_dvd _ (dvd_refl m), ← Nat.pow_mod]
      have hsq : (b * b) ^ (e / 2) = b ^ (2 * (e / 2)) := by
        rw [two_mul, pow_add, ← mul_pow]
      have hunfold : modPowAux m b (n + 1) e =
          if e % 2 = 1 then (modPowAux m ((b * b) % m) n (e / 2) * b) % m
          else modPowAux m ((b * b) % m) n (e / 2) := by
        simp [modPowAux, h0]
      rw [hunfold, hrec, hbb, hsq]
      by_cases hodd : e % 2 = 1
      · have he2 : 2 * (e / 2) + 1 = e := by omega
        rw [if_pos hodd, Nat.mod_mul_mod, ← pow_succ, he2]
      · have he2 : 2 * (e / 2) = e := by omega
        rw [if_neg hodd, he2]

theorem modPow_correct (b e m : ℕ) : modPow b e m = b ^ e % m := by
  rw [modPow, modPowAux_correct m e e (b % m) le_rfl, ← Nat.pow_mod]

/-- The exponent precomputed by `MinRootIteration::new` (src/examples/minroot.rs:39-46):
`five_inv = 5.modpow(p - 2, p)` and `exp = (five_inv * (p - 3)) % p`. -/
def minrootExp (p : ℕ) : ℕ :=
  (modPow 5 (p - 2) p * (p - 3)) % p

/-- One record of the MinRoot advice trace (src/examples/minroot.rs:26-32). -/
structure MinRootIteration (p : ℕ) where
  x_i : ZMod p
  y_i : ZMod p
  x_i_plus_1 : ZMod p
  y_i_plus_1 : ZMod p
  deriving DecidableEq, Repr

/-- The iteration loop of `MinRootIteration::new` (src/examples/minroot.rs:48-80):
given the exponent `e`, a remaining iteration count, the 0-based index `i` of the next
iteration and the running pair `(x_i, y_i)`, produce the list of iteration records.
Each step computes `x_{i+1} = (x_i + y_i)^e` and `y_{i+1} = x_i + (i+1)`. -/
def minRootTrace (p : ℕ) (e : ℕ) : ℕ → ℕ → ZMod p → ZMod p → List (MinRootIteration p)
  | 0, _, _, _ => []
  | n + 1, i, x, y =>
    let x1 : ZMod p := (x + y) ^ e
    let y1 : ZMod p := x + ((i + 1 : ℕ) : ZMod p)
    ⟨x, y, x1, y1⟩ :: minRootTrace p e n (i + 1) x1 y1

/-- `MinRootIteration::new` (src/examples/minroot.rs:36-85): produces the initial state
vector `z0 = [x_0, y_0]` and the advice trace of `num_iters` records. -/
def MinRootIteration.new (p : ℕ) (num_iters : ℕ) (x_0 y_0 : ZMod p) :
    List (ZMod p) × List (MinRootIteration p) :=
  ([x_0, y_0], minRootTrace p (minrootExp p) num_iters 0 x_0 y_0)

/-! ## Arithmetic of the precomputed exponent

For a prime `p ≡ 2 (mod 5)` (which holds for both Pasta primes), the value computed at
src/examples/minroot.rs:39-46 is `(4p - 3) / 5`, the inverse of `5` modulo `p - 1`, so
raising to it is a right inverse of raising to the fifth power. -/

theorem five_inv_eq {p : ℕ} (hp : Nat.Prime p) (h5 : p % 5 = 2) (hlt : 5 < p) :
    modPow 5 (p - 2) p = (1 + 2 * p) / 5 := by
  obtain ⟨k, rfl⟩ : ∃ k, p = 5 * k + 2 := ⟨p / 5, by omega⟩
  have hk : 1 ≤ k := by omega
  rw [modPow_correct]
  have hdiv : (1 + 2 * (5 * k + 2)) / 5 = 2 * k + 1 := by omega
  rw [hdiv]
  have hcop : Nat.Coprime (5 * k + 2) 5 := by
    rw [Nat.Prime.coprime_iff_not_dvd hp]
    intro hdvd
    have := Nat.le_of_dvd (by norm_num) hdvd
    omega
  have hferm : 5 ^ (5 * k + 2 - 1) ≡ 1 [MOD 5 * k + 2] := by
    have := Nat.ModEq.pow_totient hcop.symm
    rwa [Nat.totient_prime hp] at this
  have hsplit : 5 ^ (5 * k + 2 - 1) = 5 * 5 ^ (5 * k + 2 - 2) := by
    have h : 5 * k + 2 - 1 = (5 * k + 2 - 2) + 1 := by omega
    rw [h, pow_succ']
  have hone : 5 * (2 * k + 1) ≡ 1 [MOD 5 * k + 2] := by
    show (5 * (2 * k + 1)) % (5 * k + 2) = 1 % (5 * k + 2)
    have : 5 * (2 * k + 1) = 1 + (5 * k + 2) * 2 := by ring
    rw [this, Nat.add_mul_mod_self_left]
  have hmul : 5 * 5 ^ (5 * k + 2 - 2) ≡ 5 * (2 * k + 1) [MOD 5 * k + 2] := by
    rw [← hsplit]
    exact hferm.trans hone.symm
  have hcanc := Nat.ModEq.cancel_left_of_coprime hcop hmul
  have := hcanc
  rw [Nat.ModEq] at this
  rwa [Nat.mod_eq_of_lt (by omega : 2 * k + 1 < 5 * k + 2)] at this

theorem minrootExp_eq {p : ℕ} (hp : Nat.Prime p) (h5 : p % 5 = 2) (hlt : 5 < p) :
    minrootExp p = (4 * p - 3) / 5 := by
  rw [minrootExp, five_inv_eq hp h5 hlt]
  obtain ⟨k, rfl⟩ : ∃ k, p = 5 * k + 2 := ⟨p / 5, by omega⟩
  have hk : 1 ≤ k := by omega
  obtain ⟨j, rfl⟩ : ∃ j, k = j + 1 := ⟨k - 1, by omega⟩
  have h1 : (1 + 2 * (5 * (j + 1) + 2)) / 5 = 2 * j + 3 := by omega
  have h2 : 5 * (j + 1) + 2 - 3 = 5 * j + 4 := by omega
  have h3 : (4 * (5 * (j + 1) + 2) - 3) / 5 = 4 * j + 5 := by omega
  rw [h1, h2, h3]
  have hprod : (2 * j + 3) * (5 * j + 4) = 4 * j + 5 + (5 * (j + 1) + 2) * (2 * j + 1) := by
    ring
  rw [hprod, Nat.add_mul_mod_self_left, Nat.mod_eq_of_lt (by omega)]

theorem five_mul_minrootExp {p : ℕ} (hp : Nat.Prime p) (h5 : p % 5 = 2) (hlt : 5 < p) :
    5 * minrootExp p = 4 * (p - 1) + 1 := by
  rw [minrootExp_eq hp h5 hlt]
  omega

/-- Any element of `ZMod p` to the power `4(p-1)+1` is itself. -/
theorem pow_four_card_sub_one {p : ℕ} (hp : Nat.Prime p) (s : ZMod p) :
    s ^ (4 * (p - 1) + 1) = s := by
  haveI : Fact p.Prime := ⟨hp⟩
  by_cases hs : s = 0
  · subst hs
    exact zero_pow (by omega)
  · rw [pow_succ, pow_mul, ZMod.pow_card_sub_one_eq_one (pow_ne_zero 4 hs), one_mul]

/-- Raising to the precomputed exponent is a right inverse of the fifth power:
the quintic-root property used by the advice generator. -/
theorem pow_minrootExp_pow_five {p : ℕ} (hp : Nat.Prime p) (h5 : p % 5 = 2) (hlt : 5 < p)
    (s : ZMod p) : (s ^ minrootExp p) ^ 5 = s := by
  rw [← pow_mul, mul_comm, five_mul_minrootExp hp h5 hlt]
  exact pow_four_card_sub_one hp s

/-- Raising to the precomputed exponent is also a left inverse of the fifth power. -/
theorem pow_five_pow_minrootExp {p : ℕ} (hp : Nat.Prime p) (h5 : p % 5 = 2) (hlt : 5 < p)
    (s : ZMod p) : (s ^ 5) ^ minrootExp p = s := by
  rw [← pow_mul, five_mul_minrootExp hp h5 hlt]
  exact pow_four_card_sub_one hp s

/-- The fifth-power map is injective on `ZMod p` when `p ≡ 2 (mod 5)` is prime. -/
theorem pow_five_injective {p : ℕ} (hp : Nat.Prime p) (h5 : p % 5 = 2) (hlt : 5 < p)
    {a b : ZMod p} (h : a ^ 5 = b ^ 5) : a = b := by
  have := congrArg (· ^ minrootExp p) h
  simpa [pow_five_pow_minrootExp hp h5 hlt] using this

/-! ## Structural properties of the advice trace -/

theorem minRootTrace_length (p e : ℕ) :
    ∀ n i (x y : ZMod p), (minRootTrace p e n i x y).length = n := by
  intro n
  induction n with
  | zero => intro i x y; rfl
  | succ m ih =>
    intro i x y
    simp [minRootTrace, ih]

/-- Every record of the trace stores `x_{i+1} = (x_i + y_i)^e`. -/
theorem minRootTrace_x1 (p e : ℕ) :
    ∀ n i (x y : ZMod p) r, r ∈ minRootTrace p e n i x y →
      r.x_i_plus_1 = (r.x_i + r.y_i) ^ e := by
  intro n
  induction n with
  | zero => intro i x y r hr; simp [minRootTrace] at hr
  | succ m ih =>
    intro i x y r hr
    simp only [minRootTrace, List.mem_cons] at hr
    rcases hr with h | h
    · subst h; rfl
    · exact ih _ _ _ r h

/-- Every record of the trace stores `y_{i+1} = x_i + (idx + 1)` where `idx` is the
record's 0-based global index. -/
theorem minRootTrace_y1 (p e : ℕ) :
    ∀ n i (x y : ZMod p) j (hj : j < (minRootTrace p e n i x y).length),
      ((minRootTrace p e n i x y).get ⟨j, hj⟩).y_i_plus_1 =
        ((minRootTrace p e n i x y).get ⟨j, hj⟩).x_i + ((i + j + 1 : ℕ) : ZMod p) := by
  intro n
  induction n with
  | zero => intro i x y j hj; simp [minRootTrace] at hj
  | succ m ih =>
    intro i x y j hj
    match j with
    | 0 => rfl
    | j + 1 =>
      have hj' : j < (minRootTrace p e m (i + 1) ((x + y) ^ e)
          (x + ((i + 1 : ℕ) : ZMod p))).length := by
        simpa [minRootTrace, minRootTrace_length] using hj
      have := ih (i + 1) ((x + y) ^ e) (x + ((i + 1 : ℕ) : ZMod p)) j hj'
      simp only [minRootTrace, List.get_cons_succ]
      rw [this]
      norm_num
      ring_nf

/-- The first record of a nonempty trace reads its inputs from the seeds. -/
theorem minRootTrace_head (p e : ℕ) (n i : ℕ) (x y : ZMod p)
    (h : 0 < (minRootTrace p e n i x y).length) :
    ((minRootTrace p e n i x y).get ⟨0, h⟩).x_i = x ∧
      ((minRootTrace p e n i x y).get ⟨0, h⟩).y_i = y := by
  match n with
  | 0 => simp [minRootTrace] at h
  | m + 1 => exact ⟨rfl, rfl⟩

/-- Each later record reads its inputs from the previous record's outputs. -/
theorem minRootTrace_chain (p e : ℕ) :
    ∀ n i (x y : ZMod p) j (hj : j + 1 < (minRootTrace p e n i x y).length),
      ((minRootTrace p e n i x y).get ⟨j + 1, hj⟩).x_i =
          ((minRootTrace p e n i x y).get ⟨j, Nat.lt_of_succ_lt hj⟩).x_i_plus_1 ∧
        ((minRootTrace p e n i x y).get ⟨j + 1, hj⟩).y_i =
          ((minRootTrace p e n i x y).get ⟨j, Nat.lt_of_succ_lt hj⟩).y_i_plus_1 := by
  intro n
  induction n with
  | zero => intro i x y j hj; simp [minRootTrace] at hj
  | succ m ih =>
    intro i x y j hj
    match j with
    | 0 =>
      have hm : 0 < (minRootTrace p e m (i + 1) ((x + y) ^ e)
          (x + ((i + 1 : ℕ) : ZMod p))).length := by
        simpa [minRootTrace, minRootTrace_length] using hj
      have hhead := minRootTrace_head p e m (i + 1) ((x + y) ^ e)
        (x + ((i + 1 : ℕ) : ZMod p)) hm
      simp only [minRootTrace, List.get_cons_succ]
      exact ⟨hhead.1, hhead.2⟩
    | j + 1 =>
      have hj' : j + 1 < (minRootTrace p e m (i + 1) ((x + y) ^ e)
          (x + ((i + 1 : ℕ) : ZMod p))).length := by
        simpa [minRootTrace, minRootTrace_length] using hj
      have := ih (i + 1) ((x + y) ^ e) (x + ((i + 1 : ℕ) : ZMod p)) j hj'
      simpa only [minRootTrace, List.get_cons_succ] using this

/-! ## Claims about the advice generator -/

/-- C1: every iteration record produced by `MinRootIteration::new` satisfies the
quintic-root property `x_i_plus_1 ^ 5 = x_i + y_i` in the scalar field. -/
theorem quintic_root_property {p : ℕ} (hp : Nat.Prime p) (h5 : p % 5 = 2) (hlt : 5 < p)
    (num_iters : ℕ) (x_0 y_0 : ZMod p) (r : MinRootIteration p)
    (hr : r ∈ (MinRootIteration.new p num_iters x_0 y_0).2) :
    r.x_i_plus_1 ^ 5 = r.x_i + r.y_i := by
  have hx1 := minRootTrace_x1 p (minrootExp p) num_iters 0 x_0 y_0 r hr
  rw [hx1, pow_minrootExp_pow_five hp h5 hlt]

theorem quintic_root_property_witness :
    (⟨0, 1, 1, 1⟩ : MinRootIteration 7) ∈ (MinRootIteration.new 7 1 0 1).2 ∧
      (⟨0, 1, 1, 1⟩ : MinRootIteration 7).x_i_plus_1 ^ 5 =
        (⟨0, 1, 1, 1⟩ : MinRootIteration 7).x_i + (⟨0, 1, 1, 1⟩ : MinRootIteration 7).y_i :=
  ⟨by decide, quintic_root_property (p := 7) (by norm_num) (by norm_num) (by norm_num)
    1 0 1 _ (by decide)⟩

/-- C2: the record at (1-based) global position `j + 1` of the trace satisfies
`y_i_plus_1 = x_i + (j + 1)`, the index embedded into the scalar field. -/
theorem additive_chaining {p : ℕ} (num_iters : ℕ) (x_0 y_0 : ZMod p) (j : ℕ)
    (hj : j < (MinRootIteration.new p num_iters x_0 y_0).2.length) :
    ((MinRootIteration.new p num_iters x_0 y_0).2.get ⟨j, hj⟩).y_i_plus_1 =
      ((MinRootIteration.new p num_iters x_0 y_0).2.get ⟨j, hj⟩).x_i +
        ((j + 1 : ℕ) : ZMod p) := by
  have := minRootTrace_y1 p (minrootExp p) num_iters 0 x_0 y_0 j hj
  simpa using this

theorem additive_chaining_witness :
    ((MinRootIteration.new 7 2 0 1).2.get ⟨1, by decide⟩).y_i_plus_1 =
      ((MinRootIteration.new 7 2 0 1).2.get ⟨1, by decide⟩).x_i + ((1 + 1 : ℕ) : ZMod 7) :=
  additive_chaining 2 0 1 1 (by decide)

/-- C4: the first record of a trace reads the seeds, and every later record reads the
previous record's outputs. -/
theorem trace_contiguity {p : ℕ} (num_iters : ℕ) (x_0 y_0 : ZMod p) :
    (∀ h : 0 < (MinRootIteration.new p num_iters x_0 y_0).2.length,
        ((MinRootIteration.new p num_iters x_0 y_0).2.get ⟨0, h⟩).x_i = x_0 ∧
          ((MinRootIteration.new p num_iters x_0 y_0).2.get ⟨0, h⟩).y_i = y_0) ∧
      ∀ j (hj : j + 1 < (MinRootIteration.new p num_iters x_0 y_0).2.length),
        ((MinRootIteration.new p num_iters x_0 y_0).2.get ⟨j + 1, hj⟩).x_i =
            ((MinRootIteration.new p num_iters x_0 y_0).2.get
              ⟨j, Nat.lt_of_succ_lt hj⟩).x_i_plus_1 ∧
          ((MinRootIteration.new p num_iters x_0 y_0).2.get ⟨j + 1, hj⟩).y_i =
            ((MinRootIteration.new p num_iters x_0 y_0).2.get
              ⟨j, Nat.lt_of_succ_lt hj⟩).y_i_plus_1 :=
  ⟨fun h => minRootTrace_head p (minrootExp p) num_iters 0 x_0 y_0 h,
    fun j hj => minRootTrace_chain p (minrootExp p) num_iters 0 x_0 y_0 j hj⟩

theorem trace_contiguity_witness :
    ((MinRootIteration.new 7 2 0 1).2.get ⟨0 + 1, by decide⟩).x_i =
      ((MinRootIteration.new 7 2 0 1).2.get ⟨0, by decide⟩).x_i_plus_1 :=
  (((trace_contiguity (p := 7) 2 0 1).2) 0 (by decide)).1

/-- C9: `MinRootIteration::new` returns `z0 = [x_0, y_0]` unchanged and a trace of length
exactly `num_iters` (in particular, the empty trace for `num_iters = 0`). -/
theorem generator_z0_and_length {p : ℕ} (num_iters : ℕ) (x_0 y_0 : ZMod p) :
    (MinRootIteration.new p num_iters x_0 y_0).1 = [x_0, y_0] ∧
      (MinRootIteration.new p num_iters x_0 y_0).2.length = num_iters :=
  ⟨rfl, minRootTrace_length p (minrootExp p) num_iters 0 x_0 y_0⟩

/-! ## The precomputed exponent versus the spec's formula (C3) -/

/-- Modelled from the spec (§4.1): the spec states the precomputed exponent is
`e = (5⁻¹ · (p − 3)) mod (p − 1)` where `5⁻¹` is a modular inverse of `5`, i.e. some
natural number `inv5` with `5 · inv5 ≡ 1` modulo `p − 1`. -/
def specExponentFormula (p e : ℕ) : Prop :=
  ∃ inv5, (5 * inv5) % (p - 1) = 1 ∧ e = (inv5 * (p - 3)) % (p - 1)

/-- The order of the scalar field of the Vesta group (the field the example runs over). -/
def vestaScalarOrder : ℕ :=
  28948022309329048855892746252171976963363056481941560715954676764349967630337

set_option maxRecDepth 20000 in
theorem minrootExp_vesta : minrootExp vestaScalarOrder =
    23158417847463239084714197001737581570690445185553248572763741411479974104269 := by
  decide

/-- C3 counterexample: at the deployed field order, the exponent computed by
`MinRootIteration::new` (reduction mod `p`, with `5⁻¹` taken mod `p`) does not satisfy
the spec's formula `(5⁻¹ · (p − 3)) mod (p − 1)` for any modular inverse `5⁻¹` of `5`:
the spec's formula always produces an even number (both `p − 3` and `p − 1` are even)
while the computed exponent is odd. -/
theorem spec_exponent_formula_refuted :
    ¬ specExponentFormula vestaScalarOrder (minrootExp vestaScalarOrder) := by
  rw [specExponentFormula, minrootExp_vesta]
  rintro ⟨i, h1, h2⟩
  have hdvd : 2 ∣ (i * (vestaScalarOrder - 3)) % (vestaScalarOrder - 1) := by
    rw [Nat.dvd_mod_iff (by decide)]
    exact dvd_mul_of_dvd_right (by decide) i
  rw [← h2] at hdvd
  exact absurd hdvd (by decide)

/-- C3 amended: the exponent precomputed by `MinRootIteration::new` equals
`(5⁻¹ mod p) · (p − 3) mod p` by construction, which evaluates to `(4p − 3) / 5`; this
value is the modular inverse of `5` modulo `p − 1` itself (not `5⁻¹ · (p − 3)` reduced
modulo `p − 1` as the spec states). -/
theorem minrootExp_closed_form {p : ℕ} (hp : Nat.Prime p) (h5 : p % 5 = 2) (hlt : 5 < p) :
    minrootExp p = (4 * p - 3) / 5 ∧ (5 * minrootExp p) % (p - 1) = 1 := by
  refine ⟨minrootExp_eq hp h5 hlt, ?_⟩
  rw [five_mul_minrootExp hp h5 hlt]
  have h : 4 * (p - 1) + 1 = 1 + (p - 1) * 4 := by ring
  rw [h, Nat.add_mul_mod_self_left, Nat.mod_eq_of_lt (by omega)]

theorem minrootExp_closed_form_witness :
    minrootExp 7 = (4 * 7 - 3) / 5 ∧ (5 * minrootExp 7) % (7 - 1) = 1 :=
  minrootExp_closed_form (p := 7) (by norm_num) (by norm_num) (by norm_num)

/-! ## The bellpepper constraint-system interface used by `MinRootCircuit::synthesize`

`synthesize` uses the constraint system through three operations: `AllocatedNum::alloc`
(allocate a fresh variable bound to a value), `ConstraintSystem::enforce` (record an
R1CS constraint `A · B = C` between linear combinations), and `AllocatedNum::square`
(allocate the square of a number and enforce `a · a = a²`).  Variables are numbered by
allocation order; variable `0` is the constant `CS::one`. -/

/-- A linear combination: a list of `(variable, coefficient)` pairs. -/
def LinComb (p : ℕ) : Type := List (ℕ × ZMod p)

instance (p : ℕ) : DecidableEq (LinComb p) := by
  unfold LinComb
  infer_instance

/-- One R1CS constraint `a · b = c`. -/
structure R1C (p : ℕ) where
  a : LinComb p
  b : LinComb p
  c : LinComb p
  deriving DecidableEq

/-- The constraint-system state: the values bound to the variables allocated so far
(variable `k` holds `assign[k]`; `assign[0] = 1` is the constant one) and the emitted
constraints. -/
structure CSState (p : ℕ) where
  assign : List (ZMod p)
  constraints : List (R1C p)
  deriving DecidableEq

/-- A fresh constraint system: only the constant-one variable, no constraints. -/
def CSState.init (p : ℕ) : CSState p := ⟨[1], []⟩

/-- An allocated number: its variable index and the value bound to it. -/
structure AllocatedNum (p : ℕ) where
  var : ℕ
  value : ZMod p
  deriving DecidableEq

/-- `AllocatedNum::alloc`: bind a fresh variable to `v`. -/
def CSState.alloc {p : ℕ} (cs : CSState p) (v : ZMod p) : AllocatedNum p × CSState p :=
  (⟨cs.assign.length, v⟩, ⟨cs.assign ++ [v], cs.constraints⟩)

/-- `ConstraintSystem::enforce`: record the constraint `a · b = c`. -/
def CSState.enforce {p : ℕ} (cs : CSState p) (a b c : LinComb p) : CSState p :=
  ⟨cs.assign, cs.constraints ++ [⟨a, b, c⟩]⟩

/-- `AllocatedNum::square`: allocate a variable bound to the square of `x` and enforce
`x · x = x²`. -/
def AllocatedNum.square {p : ℕ} (x : AllocatedNum p) (cs : CSState p) :
    AllocatedNum p × CSState p :=
  let (sq, cs') := cs.alloc (x.value * x.value)
  (sq, cs'.enforce [(x.var, 1)] [(x.var, 1)] [(sq.var, 1)])

/-- `SynthesisError` (only the variant `synthesize` constructs). -/
inductive SynthesisError : Type where
  | assignmentMissing : SynthesisError
  deriving DecidableEq

instance {p : ℕ} : DecidableEq (Except SynthesisError (List (AllocatedNum p)))
  | .error u, .error v =>
    match decEq u v with
    | isTrue h => isTrue (h ▸ rfl)
    | isFalse h => isFalse fun hh => h (by cases hh; rfl)
  | .error _, .ok _ => isFalse fun hh => by cases hh
  | .ok _, .error _ => isFalse fun hh => by cases hh
  | .ok u, .ok v =>
    match decEq u v with
    | isTrue h => isTrue (h ▸ rfl)
    | isFalse h => isFalse fun hh => h (by cases hh; rfl)

/-- The loop body of `MinRootCircuit::synthesize` (src/examples/minroot.rs:113-152),
processing the remaining records.  `x_i`, `y_i` are the running allocated values, `zout`
is the output accumulator (`Err(AssignmentMissing)` until the last iteration writes it),
and `i` is the 0-based position within the slice of the next record.  The Rust guard
`i == self.seq.len() - 1` is the guard `rest = []` here, since `i` records exactly how
many elements of the original slice have been consumed. -/
def synthesizeGo {p : ℕ} : List (MinRootIteration p) → AllocatedNum p → AllocatedNum p →
    Except SynthesisError (List (AllocatedNum p)) → ℕ → CSState p →
    Except SynthesisError (List (AllocatedNum p)) × CSState p
  | [], _, _, zout, _, cs => (zout, cs)
  | r :: rest, x_i, y_i, zout, i, cs =>
    let ai := cs.alloc ((i + 1 : ℕ) : ZMod p)
    let i_ := ai.1
    let ax1 := ai.2.alloc r.x_i_plus_1
    let x_i_plus_1 := ax1.1
    let ay1 := ax1.2.alloc r.y_i_plus_1
    let y_i_plus_1 := ay1.1
    let asq := x_i_plus_1.square ay1.2
    let x_i_plus_1_sq := asq.1
    let aquad := x_i_plus_1_sq.square asq.2
    let x_i_plus_1_quad := aquad.1
    let cs6 := aquad.2.enforce [(x_i_plus_1_quad.var, 1)] [(x_i_plus_1.var, 1)]
      [(x_i.var, 1), (y_i.var, 1)]
    let cs7 := cs6.enforce [(0, 1)] [(y_i_plus_1.var, 1)] [(x_i.var, 1), (i_.var, 1)]
    let zout' := if rest.isEmpty then Except.ok [x_i_plus_1, x_i] else zout
    synthesizeGo rest x_i_plus_1 y_i_plus_1 zout' (i + 1) cs7

/-- `MinRootCircuit::synthesize` (src/examples/minroot.rs:98-155) for a circuit with
trace slice `seq` and input vector `z = [x_0, y_0]`: starts with
`z_out = Err(AssignmentMissing)` and runs the loop over `seq`. -/
def MinRootCircuit.synthesize {p : ℕ} (seq : List (MinRootIteration p))
    (x_0 y_0 : AllocatedNum p) (cs : CSState p) :
    Except SynthesisError (List (AllocatedNum p)) × CSState p :=
  synthesizeGo seq x_0 y_0 (Except.error SynthesisError.assignmentMissing) 0 cs

/-! ## Satisfaction semantics of the emitted R1CS -/

/-- Evaluate a linear combination under an assignment of values to variables. -/
def LinComb.eval {p : ℕ} (f : ℕ → ZMod p) (l : LinComb p) : ZMod p :=
  (l.map fun t => t.2 * f t.1).sum

/-- The assignment function of a variable-value list (out-of-range variables read 0). -/
def assignFun {p : ℕ} (l : List (ZMod p)) : ℕ → ZMod p :=
  fun k => l.getD k 0

/-- A constraint `a · b = c` holds under an assignment. -/
def R1C.holds {p : ℕ} (f : ℕ → ZMod p) (c : R1C p) : Prop :=
  LinComb.eval f c.a * LinComb.eval f c.b = LinComb.eval f c.c

instance {p : ℕ} (f : ℕ → ZMod p) (c : R1C p) : Decidable (c.holds f) := by
  unfold R1C.holds
  infer_instance

/-- All constraints of a list hold under an assignment. -/
def satisfiedBy {p : ℕ} (f : ℕ → ZMod p) (cl : List (R1C p)) : Prop :=
  ∀ c ∈ cl, c.holds f

instance {p : ℕ} (f : ℕ → ZMod p) (cl : List (R1C p)) : Decidable (satisfiedBy f cl) := by
  unfold satisfiedBy
  infer_instance

/-- The emitted constraint system is satisfied by its own bound witness values. -/
def CSState.satisfied {p : ℕ} (cs : CSState p) : Prop :=
  satisfiedBy (assignFun cs.assign) cs.constraints

instance {p : ℕ} (cs : CSState p) : Decidable cs.satisfied := by
  unfold CSState.satisfied
  infer_instance

/-! ## C8: synthesize on the empty slice -/

/-- C8 amended: on an empty trace slice, `synthesize` emits no constraints and no
allocations, but returns `Err(AssignmentMissing)` rather than `Ok(z_in)`. -/
theorem synthesize_nil {p : ℕ} (x_0 y_0 : AllocatedNum p) (cs : CSState p) :
    MinRootCircuit.synthesize [] x_0 y_0 cs =
      (Except.error SynthesisError.assignmentMissing, cs) :=
  rfl

/-- C8 counterexample: with the field `ZMod 7`, input variables 1 and 2 bound to values
0 and 1 in a fresh constraint system, `synthesize` on the empty slice does not return
`Ok(z_in)` — it returns `Err(AssignmentMissing)`. -/
theorem synthesize_nil_not_ok :
    (MinRootCircuit.synthesize (p := 7) [] ⟨1, 0⟩ ⟨2, 1⟩ ⟨[1, 0, 1], []⟩).1 =
        Except.error SynthesisError.assignmentMissing ∧
      (MinRootCircuit.synthesize (p := 7) [] ⟨1, 0⟩ ⟨2, 1⟩ ⟨[1, 0, 1], []⟩).1 ≠
        Except.ok [⟨1, 0⟩, ⟨2, 1⟩] :=
  ⟨rfl, by decide⟩

/-! ## Closed forms for the state grown by `synthesize` -/

/-- The values allocated by one loop iteration for record `r` at slice position `i`:
the embedded index `i + 1`, `x_i_plus_1`, `y_i_plus_1`, then the two squarings. -/
def mkAssign {p : ℕ} : List (MinRootIteration p) → ℕ → List (ZMod p)
  | [], _ => []
  | r :: rest, i =>
    [((i + 1 : ℕ) : ZMod p), r.x_i_plus_1, r.y_i_plus_1,
      r.x_i_plus_1 * r.x_i_plus_1,
      (r.x_i_plus_1 * r.x_i_plus_1) * (r.x_i_plus_1 * r.x_i_plus_1)] ++
        mkAssign rest (i + 1)

/-- The four constraints one loop iteration emits, when the five fresh variables start
at index `L` and the running `x`, `y` variables are `xv`, `yv`: the two squarings, the
quintic check `quad · x1 = x + y`, and the chaining check `1 · y1 = x + idx`. -/
def mkBlock (p : ℕ) (L xv yv : ℕ) : List (R1C p) :=
  [⟨[(L + 1, 1)], [(L + 1, 1)], [(L + 3, 1)]⟩,
    ⟨[(L + 3, 1)], [(L + 3, 1)], [(L + 4, 1)]⟩,
    ⟨[(L + 4, 1)], [(L + 1, 1)], [(xv, 1), (yv, 1)]⟩,
    ⟨[(0, 1)], [(L + 2, 1)], [(xv, 1), (L, 1)]⟩]

/-- All constraints `synthesize` emits for a slice of `n` iterations, with fresh
variables starting at `L` and input variables `xv`, `yv`.  The emitted constraints
depend only on these indices, never on the witness values. -/
def mkConstraints (p : ℕ) : ℕ → ℕ → ℕ → ℕ → List (R1C p)
  | _, _, _, 0 => []
  | L, xv, yv, n + 1 => mkBlock p L xv yv ++ mkConstraints p (L + 5) (L + 1) (L + 2) n

theorem synthesizeGo_assign {p : ℕ} :
    ∀ (seq : List (MinRootIteration p)) x y zout i cs,
      (synthesizeGo seq x y zout i cs).2.assign = cs.assign ++ mkAssign seq i := by
  intro seq
  induction seq with
  | nil => intro x y zout i cs; simp [synthesizeGo, mkAssign]
  | cons r rest ih =>
    intro x y zout i cs
    simp only [synthesizeGo, CSState.alloc, AllocatedNum.square, CSState.enforce]
    rw [ih]
    simp [mkAssign]

theorem synthesizeGo_constraints {p : ℕ} :
    ∀ (seq : List (MinRootIteration p)) x y zout i cs,
      (synthesizeGo seq x y zout i cs).2.constraints =
        cs.constraints ++ mkConstraints p cs.assign.length x.var y.var seq.length := by
  intro seq
  induction seq with
  | nil => intro x y zout i cs; simp [synthesizeGo, mkConstraints]
  | cons r rest ih =>
    intro x y zout i cs
    simp only [synthesizeGo, CSState.alloc, AllocatedNum.square, CSState.enforce]
    rw [ih]
    simp [mkConstraints, mkBlock, List.length_append]

/-- One loop iteration, with the successor state written in closed form. -/
theorem synthesizeGo_cons {p : ℕ} (r : MinRootIteration p) (rest : List (MinRootIteration p))
    (x y : AllocatedNum p) (zout : Except SynthesisError (List (AllocatedNum p))) (i : ℕ)
    (cs : CSState p) :
    synthesizeGo (r :: rest) x y zout i cs =
      synthesizeGo rest ⟨cs.assign.length + 1, r.x_i_plus_1⟩
        ⟨cs.assign.length + 2, r.y_i_plus_1⟩
        (if rest.isEmpty then Except.ok [⟨cs.assign.length + 1, r.x_i_plus_1⟩, x] else zout)
        (i + 1)
        ⟨cs.assign ++ [((i + 1 : ℕ) : ZMod p), r.x_i_plus_1, r.y_i_plus_1,
            r.x_i_plus_1 * r.x_i_plus_1,
            (r.x_i_plus_1 * r.x_i_plus_1) * (r.x_i_plus_1 * r.x_i_plus_1)],
          cs.constraints ++ mkBlock p cs.assign.length x.var y.var⟩ := by
  simp [synthesizeGo, CSState.alloc, AllocatedNum.square, CSState.enforce, mkBlock]

/-- The output accumulator returned by the loop on a nonempty remaining slice: the last
iteration's freshly allocated `x_i_plus_1` paired with the running `x` before it. -/
theorem synthesizeGo_zout {p : ℕ} :
    ∀ (seq : List (MinRootIteration p)) (hne : seq ≠ []) (x y : AllocatedNum p) zout i cs,
      ∃ a b : AllocatedNum p, (synthesizeGo seq x y zout i cs).1 = Except.ok [a, b] ∧
        a.value = (seq.getLast hne).x_i_plus_1 ∧
        b.value = seq.dropLast.foldl (fun _ r => r.x_i_plus_1) x.value := by
  intro seq
  induction seq with
  | nil => intro hne; exact absurd rfl hne
  | cons r rest ih =>
    intro hne x y zout i cs
    match rest with
    | [] =>
      refine ⟨⟨cs.assign.length + 1, r.x_i_plus_1⟩, x, ?_, rfl, rfl⟩
      rw [synthesizeGo_cons]
      rfl
    | s :: t =>
      have hne' : s :: t ≠ [] := List.cons_ne_nil s t
      rw [synthesizeGo_cons]
      obtain ⟨a, b, h1, h2, h3⟩ := ih hne' ⟨cs.assign.length + 1, r.x_i_plus_1⟩
        ⟨cs.assign.length + 2, r.y_i_plus_1⟩
        (if (s :: t).isEmpty then
          Except.ok [⟨cs.assign.length + 1, r.x_i_plus_1⟩, x] else zout)
        (i + 1)
        ⟨cs.assign ++ [((i + 1 : ℕ) : ZMod p), r.x_i_plus_1, r.y_i_plus_1,
            r.x_i_plus_1 * r.x_i_plus_1,
            (r.x_i_plus_1 * r.x_i_plus_1) * (r.x_i_plus_1 * r.x_i_plus_1)],
          cs.constraints ++ mkBlock p cs.assign.length x.var y.var⟩
      refine ⟨a, b, h1, ?_, ?_⟩
      · rw [h2]
        simp
      · rw [h3]
        simp [List.dropLast_cons₂, List.foldl_cons]

/-! ## C5: the output vector on a nonempty slice -/

/-- C5: on a nonempty slice, `synthesize` returns `Ok [x_out, x_pre]` where `x_out`
carries the last record's `x_i_plus_1` and `x_pre` carries the running `x` value before
the final iteration (the seed value for a one-element slice, the second-to-last record's
`x_i_plus_1` otherwise) — not the final `y_i_plus_1`. -/
theorem synthesize_output {p : ℕ} (seq : List (MinRootIteration p)) (hne : seq ≠ [])
    (x_0 y_0 : AllocatedNum p) (cs : CSState p) :
    ∃ a b : AllocatedNum p,
      (MinRootCircuit.synthesize seq x_0 y_0 cs).1 = Except.ok [a, b] ∧
        a.value = (seq.getLast hne).x_i_plus_1 ∧
        b.value = seq.dropLast.foldl (fun _ r => r.x_i_plus_1) x_0.value :=
  synthesizeGo_zout seq hne x_0 y_0 (Except.error SynthesisError.assignmentMissing) 0 cs

theorem synthesize_output_witness :
    ∃ a b : AllocatedNum 7,
      (MinRootCircuit.synthesize ((MinRootIteration.new 7 2 0 1).2) ⟨1, 0⟩ ⟨2, 1⟩
        (CSState.init 7)).1 = Except.ok [a, b] ∧
        a.value = (((MinRootIteration.new 7 2 0 1).2).getLast (by decide)).x_i_plus_1 ∧
        b.value = ((MinRootIteration.new 7 2 0 1).2).dropLast.foldl
          (fun _ r => r.x_i_plus_1) (AllocatedNum.value ⟨1, 0⟩) :=
  synthesize_output ((MinRootIteration.new 7 2 0 1).2) (by decide) ⟨1, 0⟩ ⟨2, 1⟩
    (CSState.init 7)

/-! ## Locating a single iteration's variables and constraints -/

/-- The variable holding the running `x` when iteration `j` of a slice is encoded, for
fresh variables starting at `L` and input variables `xv`, `yv`: the input variable for
`j = 0`, the previous iteration's `x_i_plus_1` variable afterwards. -/
def xVarIdx (L xv : ℕ) : ℕ → ℕ
  | 0 => xv
  | j + 1 => L + 5 * j + 1

/-- The variable holding the running `y` when iteration `j` of a slice is encoded. -/
def yVarIdx (L yv : ℕ) : ℕ → ℕ
  | 0 => yv
  | j + 1 => L + 5 * j + 2

theorem xVarIdx_shift (L xv : ℕ) (j : ℕ) : xVarIdx (L + 5) (L + 1) j = xVarIdx L xv (j + 1) := by
  match j with
  | 0 => simp [xVarIdx]
  | k + 1 => simp [xVarIdx]; omega

theorem yVarIdx_shift (L yv : ℕ) (j : ℕ) : yVarIdx (L + 5) (L + 2) j = yVarIdx L yv (j + 1) := by
  match j with
  | 0 => simp [yVarIdx]
  | k + 1 => simp [yVarIdx]; omega

/-- Iteration `j`'s four constraints are among the constraints emitted for the slice. -/
theorem mkBlock_subset {p : ℕ} :
    ∀ (j n L xv yv : ℕ), j < n →
      ∀ c ∈ mkBlock p (L + 5 * j) (xVarIdx L xv j) (yVarIdx L yv j),
        c ∈ mkConstraints p L xv yv n := by
  intro j
  induction j with
  | zero =>
    intro n L xv yv hn c hc
    match n with
    | m + 1 =>
      apply List.mem_append_left
      simpa [xVarIdx, yVarIdx] using hc
  | succ jj ih =>
    intro n L xv yv hn c hc
    match n with
    | m + 1 =>
      apply List.mem_append_right
      apply ih m (L + 5) (L + 1) (L + 2) (by omega)
      rw [xVarIdx_shift L xv jj, yVarIdx_shift L yv jj,
        show L + 5 + 5 * jj = L + 5 * (jj + 1) from by omega]
      exact hc

/-- Satisfaction of one iteration's four constraints, unfolded into field equations. -/
theorem mkBlock_sat_iff {p : ℕ} (f : ℕ → ZMod p) (L xv yv : ℕ) :
    satisfiedBy f (mkBlock p L xv yv) ↔
      f (L + 1) * f (L + 1) = f (L + 3) ∧
        f (L + 3) * f (L + 3) = f (L + 4) ∧
        f (L + 4) * f (L + 1) = f xv + f yv ∧
        f 0 * f (L + 2) = f xv + f L := by
  simp [satisfiedBy, mkBlock, R1C.holds, LinComb.eval, add_assoc]

/-- Reading back the values bound by iteration `j` from the allocation list. -/
theorem mkAssign_getD {p : ℕ} :
    ∀ (j : ℕ) (seq : List (MinRootIteration p)) (i : ℕ) (hj : j < seq.length),
      (mkAssign seq i).getD (5 * j) 0 = ((i + j + 1 : ℕ) : ZMod p) ∧
      (mkAssign seq i).getD (5 * j + 1) 0 = (seq.get ⟨j, hj⟩).x_i_plus_1 ∧
      (mkAssign seq i).getD (5 * j + 2) 0 = (seq.get ⟨j, hj⟩).y_i_plus_1 ∧
      (mkAssign seq i).getD (5 * j + 3) 0 =
        (seq.get ⟨j, hj⟩).x_i_plus_1 * (seq.get ⟨j, hj⟩).x_i_plus_1 ∧
      (mkAssign seq i).getD (5 * j + 4) 0 =
        ((seq.get ⟨j, hj⟩).x_i_plus_1 * (seq.get ⟨j, hj⟩).x_i_plus_1) *
          ((seq.get ⟨j, hj⟩).x_i_plus_1 * (seq.get ⟨j, hj⟩).x_i_plus_1) := by
  intro j
  induction j with
  | zero =>
    intro seq i hj
    match seq with
    | r :: rest => exact ⟨rfl, rfl, rfl, rfl, rfl⟩
  | succ jj ih =>
    intro seq i hj
    match seq with
    | r :: rest =>
      have hj' : jj < rest.length := by
        simp only [List.length_cons] at hj
        omega
      obtain ⟨e0, e1, e2, e3, e4⟩ := ih rest (i + 1) hj'
      have key : ∀ m, 5 ≤ m →
          (mkAssign (r :: rest) i).getD m 0 = (mkAssign rest (i + 1)).getD (m - 5) 0 := by
        intro m hm
        simp only [mkAssign]
        rw [List.getD_append_right _ _ _ _ (by simpa using hm)]
        simp
      refine ⟨?_, ?_, ?_, ?_, ?_⟩
      · rw [key (5 * (jj + 1)) (by omega),
          show 5 * (jj + 1) - 5 = 5 * jj from by omega, e0]
        congr 2
        omega
      · rw [key (5 * (jj + 1) + 1) (by omega),
          show 5 * (jj + 1) + 1 - 5 = 5 * jj + 1 from by omega, e1]
        simp
      · rw [key (5 * (jj + 1) + 2) (by omega),
          show 5 * (jj + 1) + 2 - 5 = 5 * jj + 2 from by omega, e2]
        simp
      · rw [key (5 * (jj + 1) + 3) (by omega),
          show 5 * (jj + 1) + 3 - 5 = 5 * jj + 3 from by omega, e3]
        simp
      · rw [key (5 * (jj + 1) + 4) (by omega),
          show 5 * (jj + 1) + 4 - 5 = 5 * jj + 4 from by omega, e4]
        simp

/-! ## C6: the embedded index is slice-local -/

/-- C6 counterexample: encode the one-element slice obtained by dropping the first
record of the two-iteration trace from seeds `(0, 1)` over `ZMod 7`, with the public
inputs bound to that slice's true inputs.  The slice's only iteration sits at global
1-based position 2 of the trace, but the allocated index variable (variable 3, the
first allocation) is bound to 1, its slice-local position plus one. -/
theorem index_not_global :
    assignFun ((MinRootCircuit.synthesize ((MinRootIteration.new 7 2 0 1).2.drop 1)
        ⟨1, 1⟩ ⟨2, 1⟩ ⟨[1, 1, 1], []⟩).2.assign) 3 = ((1 : ℕ) : ZMod 7) ∧
      ((1 : ℕ) : ZMod 7) ≠ ((2 : ℕ) : ZMod 7) :=
  ⟨by decide, by decide⟩

/-- C6 amended: for each iteration `j` of the slice it encodes, `synthesize` allocates
the index variable bound to the slice-local 1-based position `j + 1` (which is the
global position only when the slice starts the trace), and that variable appears in the
emitted chaining constraint `1 · y_i_plus_1 = x + idx`. -/
theorem index_slice_local {p : ℕ} (seq : List (MinRootIteration p)) (vx vy : ZMod p)
    (j : ℕ) (hj : j < seq.length) :
    assignFun ((MinRootCircuit.synthesize seq ⟨1, vx⟩ ⟨2, vy⟩
        ⟨[1, vx, vy], []⟩).2.assign) (3 + 5 * j) = ((j + 1 : ℕ) : ZMod p) ∧
      (⟨[(0, 1)], [(3 + 5 * j + 2, 1)], [(xVarIdx 3 1 j, 1), (3 + 5 * j, 1)]⟩ : R1C p) ∈
        (MinRootCircuit.synthesize seq ⟨1, vx⟩ ⟨2, vy⟩ ⟨[1, vx, vy], []⟩).2.constraints := by
  constructor
  · rw [MinRootCircuit.synthesize, synthesizeGo_assign]
    unfold assignFun
    rw [List.getD_append_right _ _ _ _ (by simp)]
    have h3 : 3 + 5 * j - [(1 : ZMod p), vx, vy].length = 5 * j := by simp
    rw [h3]
    have := (mkAssign_getD j seq 0 hj).1
    simpa using this
  · rw [MinRootCircuit.synthesize, synthesizeGo_constraints]
    apply List.mem_append_right
    have hsub := mkBlock_subset (p := p) j seq.length 3 1 2 hj
    apply hsub
    simp [mkBlock]

theorem index_slice_local_witness :
    assignFun ((MinRootCircuit.synthesize ((MinRootIteration.new 7 2 0 1).2) ⟨1, 0⟩ ⟨2, 1⟩
        ⟨[1, 0, 1], []⟩).2.assign) (3 + 5 * 1) = ((1 + 1 : ℕ) : ZMod 7) ∧
      (⟨[(0, 1)], [(3 + 5 * 1 + 2, 1)], [(xVarIdx 3 1 1, 1), (3 + 5 * 1, 1)]⟩ : R1C 7) ∈
        (MinRootCircuit.synthesize ((MinRootIteration.new 7 2 0 1).2) ⟨1, 0⟩ ⟨2, 1⟩
          ⟨[1, 0, 1], []⟩).2.constraints :=
  index_slice_local ((MinRootIteration.new 7 2 0 1).2) 0 1 1 (by decide)

/-! ## Helpers for the tampering analysis (C7) -/

theorem CSState.ext' {p : ℕ} {c1 c2 : CSState p} (h1 : c1.assign = c2.assign)
    (h2 : c1.constraints = c2.constraints) : c1 = c2 := by
  cases c1
  cases c2
  cases h1
  cases h2
  rfl

theorem assignFun_big {p : ℕ} (vx vy : ZMod p) (l : List (ZMod p)) (m : ℕ) (hm : 3 ≤ m) :
    assignFun ([1, vx, vy] ++ l) m = l.getD (m - 3) 0 := by
  unfold assignFun
  rw [List.getD_append_right _ _ _ _ (by simpa using hm)]
  simp

theorem assignFun_one {p : ℕ} (vx vy : ZMod p) (l : List (ZMod p)) :
    assignFun ([1, vx, vy] ++ l) 0 = 1 :=
  rfl

theorem assignFun_vx {p : ℕ} (vx vy : ZMod p) (l : List (ZMod p)) :
    assignFun ([1, vx, vy] ++ l) 1 = vx :=
  rfl

theorem assignFun_vy {p : ℕ} (vx vy : ZMod p) (l : List (ZMod p)) :
    assignFun ([1, vx, vy] ++ l) 2 = vy :=
  rfl

/-- `mkAssign` only reads the two output fields, so replacing one record by another
with the same outputs leaves the allocated values unchanged. -/
theorem mkAssign_set_inputs {p : ℕ} :
    ∀ (seq : List (MinRootIteration p)) (j : ℕ) (r' : MinRootIteration p) (i : ℕ)
      (hj : j < seq.length),
      r'.x_i_plus_1 = (seq.get ⟨j, hj⟩).x_i_plus_1 →
      r'.y_i_plus_1 = (seq.get ⟨j, hj⟩).y_i_plus_1 →
      mkAssign (seq.set j r') i = mkAssign seq i := by
  intro seq
  induction seq with
  | nil => intro j r' i hj; simp at hj
  | cons r rest ih =>
    intro j r' i hj hx hy
    match j with
    | 0 =>
      show mkAssign (r' :: rest) i = mkAssign (r :: rest) i
      simp only [List.get] at hx hy
      simp [mkAssign, hx, hy]
    | k + 1 =>
      show mkAssign (r :: rest.set k r') i = mkAssign (r :: rest) i
      simp only [mkAssign]
      congr 1
      exact ih k r' (i + 1) (by simpa using hj) hx hy

/-- The running `x` and `y` variables read by iteration `j`'s constraints carry the
untampered trace record's input values, even after record `j` itself is replaced. -/
theorem running_values {p : ℕ} (e n : ℕ) (vx vy : ZMod p) (j : ℕ) (r' : MinRootIteration p)
    (hj : j < (minRootTrace p e n 0 vx vy).length) :
    assignFun ([1, vx, vy] ++ mkAssign ((minRootTrace p e n 0 vx vy).set j r') 0)
        (xVarIdx 3 1 j) = ((minRootTrace p e n 0 vx vy).get ⟨j, hj⟩).x_i ∧
      assignFun ([1, vx, vy] ++ mkAssign ((minRootTrace p e n 0 vx vy).set j r') 0)
        (yVarIdx 3 2 j) = ((minRootTrace p e n 0 vx vy).get ⟨j, hj⟩).y_i := by
  match j with
  | 0 =>
    have hhead := minRootTrace_head p e n 0 vx vy hj
    exact ⟨hhead.1.symm, hhead.2.symm⟩
  | k + 1 =>
    have hk' : k < ((minRootTrace p e n 0 vx vy).set (k + 1) r').length := by
      simp only [List.length_set]
      omega
    have hgetk : ((minRootTrace p e n 0 vx vy).set (k + 1) r').get ⟨k, hk'⟩ =
        (minRootTrace p e n 0 vx vy).get ⟨k, Nat.lt_of_succ_lt hj⟩ := by
      simp [List.get_eq_getElem, List.getElem_set_ne (by omega : k + 1 ≠ k)]
    have hchain := minRootTrace_chain p e n 0 vx vy k hj
    constructor
    · show assignFun _ (3 + 5 * k + 1) = _
      rw [assignFun_big _ _ _ _ (by omega),
        show 3 + 5 * k + 1 - 3 = 5 * k + 1 from by omega,
        (mkAssign_getD k _ 0 hk').2.1, hgetk]
      exact hchain.1.symm
    · show assignFun _ (3 + 5 * k + 2) = _
      rw [assignFun_big _ _ _ _ (by omega),
        show 3 + 5 * k + 2 - 3 = 5 * k + 2 from by omega,
        (mkAssign_getD k _ 0 hk').2.2.1, hgetk]
      exact hchain.2.symm

/-! ## C7: which single-field tampers the constraints detect -/

/-- C7 amended: take the full generator trace as the slice, with the public inputs
bound to the seeds.  Replacing one record's `x_i_plus_1` or `y_i_plus_1` by a different
value yields a constraint system that its bound witness values no longer satisfy; but
replacing a record's `x_i` or `y_i` (by any value) leaves the emitted constraint system
— allocations and constraints — completely unchanged, because `synthesize` never reads
those two fields. -/
theorem tamper_detected {p : ℕ} (hp : Nat.Prime p) (h5 : p % 5 = 2) (hlt : 5 < p)
    (n : ℕ) (vx vy : ZMod p) (j : ℕ)
    (hj : j < (MinRootIteration.new p n vx vy).2.length) (v : ZMod p) :
    (v ≠ ((MinRootIteration.new p n vx vy).2.get ⟨j, hj⟩).x_i_plus_1 →
      ¬ (MinRootCircuit.synthesize
          ((MinRootIteration.new p n vx vy).2.set j
            ⟨((MinRootIteration.new p n vx vy).2.get ⟨j, hj⟩).x_i,
              ((MinRootIteration.new p n vx vy).2.get ⟨j, hj⟩).y_i,
              v,
              ((MinRootIteration.new p n vx vy).2.get ⟨j, hj⟩).y_i_plus_1⟩)
          ⟨1, vx⟩ ⟨2, vy⟩ ⟨[1, vx, vy], []⟩).2.satisfied) ∧
    (v ≠ ((MinRootIteration.new p n vx vy).2.get ⟨j, hj⟩).y_i_plus_1 →
      ¬ (MinRootCircuit.synthesize
          ((MinRootIteration.new p n vx vy).2.set j
            ⟨((MinRootIteration.new p n vx vy).2.get ⟨j, hj⟩).x_i,
              ((MinRootIteration.new p n vx vy).2.get ⟨j, hj⟩).y_i,
              ((MinRootIteration.new p n vx vy).2.get ⟨j, hj⟩).x_i_plus_1,
              v⟩)
          ⟨1, vx⟩ ⟨2, vy⟩ ⟨[1, vx, vy], []⟩).2.satisfied) ∧
    ((MinRootCircuit.synthesize
        ((MinRootIteration.new p n vx vy).2.set j
          ⟨v,
            ((MinRootIteration.new p n vx vy).2.get ⟨j, hj⟩).y_i,
            ((MinRootIteration.new p n vx vy).2.get ⟨j, hj⟩).x_i_plus_1,
            ((MinRootIteration.new p n vx vy).2.get ⟨j, hj⟩).y_i_plus_1⟩)
        ⟨1, vx⟩ ⟨2, vy⟩ ⟨[1, vx, vy], []⟩).2 =
      (MinRootCircuit.synthesize (MinRootIteration.new p n vx vy).2
        ⟨1, vx⟩ ⟨2, vy⟩ ⟨[1, vx, vy], []⟩).2) ∧
    ((MinRootCircuit.synthesize
        ((MinRootIteration.new p n vx vy).2.set j
          ⟨((MinRootIteration.new p n vx vy).2.get ⟨j, hj⟩).x_i,
            v,
            ((MinRootIteration.new p n vx vy).2.get ⟨j, hj⟩).x_i_plus_1,
            ((MinRootIteration.new p n vx vy).2.get ⟨j, hj⟩).y_i_plus_1⟩)
        ⟨1, vx⟩ ⟨2, vy⟩ ⟨[1, vx, vy], []⟩).2 =
      (MinRootCircuit.synthesize (MinRootIteration.new p n vx vy).2
        ⟨1, vx⟩ ⟨2, vy⟩ ⟨[1, vx, vy], []⟩).2) := by
  simp only [MinRootIteration.new] at hj ⊢
  refine ⟨?_, ?_, ?_, ?_⟩
  · intro hv hsat
    unfold CSState.satisfied at hsat
    rw [MinRootCircuit.synthesize, synthesizeGo_assign, synthesizeGo_constraints] at hsat
    simp only [List.nil_append] at hsat
    have hjset : j < ((minRootTrace p (minrootExp p) n 0 vx vy).set j
        ⟨((minRootTrace p (minrootExp p) n 0 vx vy).get ⟨j, hj⟩).x_i,
          ((minRootTrace p (minrootExp p) n 0 vx vy).get ⟨j, hj⟩).y_i,
          v,
          ((minRootTrace p (minrootExp p) n 0 vx vy).get ⟨j, hj⟩).y_i_plus_1⟩).length := by
      simp only [List.length_set]
      exact hj
    have hblock : satisfiedBy
        (assignFun ([1, vx, vy] ++ mkAssign ((minRootTrace p (minrootExp p) n 0 vx vy).set j
          ⟨((minRootTrace p (minrootExp p) n 0 vx vy).get ⟨j, hj⟩).x_i,
            ((minRootTrace p (minrootExp p) n 0 vx vy).get ⟨j, hj⟩).y_i,
            v,
            ((minRootTrace p (minrootExp p) n 0 vx vy).get ⟨j, hj⟩).y_i_plus_1⟩) 0))
        (mkBlock p (3 + 5 * j) (xVarIdx 3 1 j) (yVarIdx 3 2 j)) :=
      fun c hc => hsat c (mkBlock_subset (p := p) j _ 3 1 2 hjset c hc)
    have heqs := (mkBlock_sat_iff _ (3 + 5 * j) (xVarIdx 3 1 j) (yVarIdx 3 2 j)).1 hblock
    have eq3 := heqs.2.2.1
    have hv1 : assignFun ([1, vx, vy] ++ mkAssign ((minRootTrace p (minrootExp p) n 0 vx vy).set j
        ⟨((minRootTrace p (minrootExp p) n 0 vx vy).get ⟨j, hj⟩).x_i,
          ((minRootTrace p (minrootExp p) n 0 vx vy).get ⟨j, hj⟩).y_i,
          v,
          ((minRootTrace p (minrootExp p) n 0 vx vy).get ⟨j, hj⟩).y_i_plus_1⟩) 0)
        (3 + 5 * j + 1) = v := by
      rw [assignFun_big _ _ _ _ (by omega),
        show 3 + 5 * j + 1 - 3 = 5 * j + 1 from by omega,
        (mkAssign_getD j _ 0 hjset).2.1]
      simp [List.get_eq_getElem]
    have hv4 : assignFun ([1, vx, vy] ++ mkAssign ((minRootTrace p (minrootExp p) n 0 vx vy).set j
        ⟨((minRootTrace p (minrootExp p) n 0 vx vy).get ⟨j, hj⟩).x_i,
          ((minRootTrace p (minrootExp p) n 0 vx vy).get ⟨j, hj⟩).y_i,
          v,
          ((minRootTrace p (minrootExp p) n 0 vx vy).get ⟨j, hj⟩).y_i_plus_1⟩) 0)
        (3 + 5 * j + 4) = (v * v) * (v * v) := by
      rw [assignFun_big _ _ _ _ (by omega),
        show 3 + 5 * j + 4 - 3 = 5 * j + 4 from by omega,
        (mkAssign_getD j _ 0 hjset).2.2.2.2]
      simp [List.get_eq_getElem]
    have hrun := running_values (p := p) (minrootExp p) n vx vy j
      ⟨((minRootTrace p (minrootExp p) n 0 vx vy).get ⟨j, hj⟩).x_i,
        ((minRootTrace p (minrootExp p) n 0 vx vy).get ⟨j, hj⟩).y_i,
        v,
        ((minRootTrace p (minrootExp p) n 0 vx vy).get ⟨j, hj⟩).y_i_plus_1⟩ hj
    rw [hv1, hv4, hrun.1, hrun.2] at eq3
    have hquint : v ^ 5 = ((minRootTrace p (minrootExp p) n 0 vx vy).get ⟨j, hj⟩).x_i +
        ((minRootTrace p (minrootExp p) n 0 vx vy).get ⟨j, hj⟩).y_i := by
      rw [show v ^ 5 = (v * v) * (v * v) * v from by ring]
      exact eq3
    have hmem : (minRootTrace p (minrootExp p) n 0 vx vy).get ⟨j, hj⟩ ∈
        minRootTrace p (minrootExp p) n 0 vx vy := List.get_mem _ _ _
    have hw := minRootTrace_x1 p (minrootExp p) n 0 vx vy _ hmem
    have hw5 : ((minRootTrace p (minrootExp p) n 0 vx vy).get ⟨j, hj⟩).x_i_plus_1 ^ 5 =
        ((minRootTrace p (minrootExp p) n 0 vx vy).get ⟨j, hj⟩).x_i +
          ((minRootTrace p (minrootExp p) n 0 vx vy).get ⟨j, hj⟩).y_i := by
      rw [hw]
      exact pow_minrootExp_pow_five hp h5 hlt _
    exact hv (pow_five_injective hp h5 hlt (hquint.trans hw5.symm))
  · intro hv hsat
    unfold CSState.satisfied at hsat
    rw [MinRootCircuit.synthesize, synthesizeGo_assign, synthesizeGo_constraints] at hsat
    simp only [List.nil_append] at hsat
    have hjset : j < ((minRootTrace p (minrootExp p) n 0 vx vy).set j
        ⟨((minRootTrace p (minrootExp p) n 0 vx vy).get ⟨j, hj⟩).x_i,
          ((minRootTrace p (minrootExp p) n 0 vx vy).get ⟨j, hj⟩).y_i,
          ((minRootTrace p (minrootExp p) n 0 vx vy).get ⟨j, hj⟩).x_i_plus_1,
          v⟩).length := by
      simp only [List.length_set]
      exact hj
    have hblock : satisfiedBy
        (assignFun ([1, vx, vy] ++ mkAssign ((minRootTrace p (minrootExp p) n 0 vx vy).set j
          ⟨((minRootTrace p (minrootExp p) n 0 vx vy).get ⟨j, hj⟩).x_i,
            ((minRootTrace p (minrootExp p) n 0 vx vy).get ⟨j, hj⟩).y_i,
            ((minRootTrace p (minrootExp p) n 0 vx vy).get ⟨j, hj⟩).x_i_plus_1,
            v⟩) 0))
        (mkBlock p (3 + 5 * j) (xVarIdx 3 1 j) (yVarIdx 3 2 j)) :=
      fun c hc => hsat c (mkBlock_subset (p := p) j _ 3 1 2 hjset c hc)
    have heqs := (mkBlock_sat_iff _ (3 + 5 * j) (xVarIdx 3 1 j) (yVarIdx 3 2 j)).1 hblock
    have eq4 := heqs.2.2.2
    have hv2 : assignFun ([1, vx, vy] ++ mkAssign ((minRootTrace p (minrootExp p) n 0 vx vy).set j
        ⟨((minRootTrace p (minrootExp p) n 0 vx vy).get ⟨j, hj⟩).x_i,
          ((minRootTrace p (minrootExp p) n 0 vx vy).get ⟨j, hj⟩).y_i,
          ((minRootTrace p (minrootExp p) n 0 vx vy).get ⟨j, hj⟩).x_i_plus_1,
          v⟩) 0)
        (3 + 5 * j + 2) = v := by
      rw [assignFun_big _ _ _ _ (by omega),
        show 3 + 5 * j + 2 - 3 = 5 * j + 2 from by omega,
        (mkAssign_getD j _ 0 hjset).2.2.1]
      simp [List.get_eq_getElem]
    have hv0 : assignFun ([1, vx, vy] ++ mkAssign ((minRootTrace p (minrootExp p) n 0 vx vy).set j
        ⟨((minRootTrace p (minrootExp p) n 0 vx vy).get ⟨j, hj⟩).x_i,
          ((minRootTrace p (minrootExp p) n 0 vx vy).get ⟨j, hj⟩).y_i,
          ((minRootTrace p (minrootExp p) n 0 vx vy).get ⟨j, hj⟩).x_i_plus_1,
          v⟩) 0)
        (3 + 5 * j) = ((j + 1 : ℕ) : ZMod p) := by
      rw [assignFun_big _ _ _ _ (by omega),
        show 3 + 5 * j - 3 = 5 * j from by omega,
        (mkAssign_getD j _ 0 hjset).1]
      simp
    have hrun := running_values (p := p) (minrootExp p) n vx vy j
      ⟨((minRootTrace p (minrootExp p) n 0 vx vy).get ⟨j, hj⟩).x_i,
        ((minRootTrace p (minrootExp p) n 0 vx vy).get ⟨j, hj⟩).y_i,
        ((minRootTrace p (minrootExp p) n 0 vx vy).get ⟨j, hj⟩).x_i_plus_1,
        v⟩ hj
    rw [hv2, hv0, hrun.1] at eq4
    rw [assignFun_one, one_mul] at eq4
    have hy := minRootTrace_y1 p (minrootExp p) n 0 vx vy j hj
    apply hv
    rw [eq4, hy]
    simp
  · apply CSState.ext'
    · rw [MinRootCircuit.synthesize, MinRootCircuit.synthesize,
        synthesizeGo_assign, synthesizeGo_assign]
      congr 1
      exact mkAssign_set_inputs _ j _ 0 hj rfl rfl
    · rw [MinRootCircuit.synthesize, MinRootCircuit.synthesize,
        synthesizeGo_constraints, synthesizeGo_constraints]
      simp [List.length_set]
  · apply CSState.ext'
    · rw [MinRootCircuit.synthesize, MinRootCircuit.synthesize,
        synthesizeGo_assign, synthesizeGo_assign]
      congr 1
      exact mkAssign_set_inputs _ j _ 0 hj rfl rfl
    · rw [MinRootCircuit.synthesize, MinRootCircuit.synthesize,
        synthesizeGo_constraints, synthesizeGo_constraints]
      simp [List.length_set]

theorem tamper_detected_witness :
    ¬ (MinRootCircuit.synthesize
        ((MinRootIteration.new 7 1 0 1).2.set 0
          ⟨((MinRootIteration.new 7 1 0 1).2.get ⟨0, by decide⟩).x_i,
            ((MinRootIteration.new 7 1 0 1).2.get ⟨0, by decide⟩).y_i,
            3,
            ((MinRootIteration.new 7 1 0 1).2.get ⟨0, by decide⟩).y_i_plus_1⟩)
        ⟨1, 0⟩ ⟨2, 1⟩ ⟨[1, 0, 1], []⟩).2.satisfied :=
  (tamper_detected (p := 7) (by norm_num) (by norm_num) (by norm_num) 1 0 1 0 (by decide) 3).1
    (by decide)

/-- C7 counterexample: over `ZMod 7`, take the two-iteration trace from seeds `(0, 1)`
(whose first record is `⟨0, 1, 1, 1⟩`) and tamper its first record's `x_i` field from
`0` to `1`.  The slice differs from the genuine trace, yet the constraint system the
encoder emits for it is still satisfied by its bound witness values, because the encoder
never reads the `x_i`/`y_i` fields. -/
theorem tamper_x_in_undetected :
    (MinRootIteration.new 7 2 0 1).2.get ⟨0, by decide⟩ = ⟨0, 1, 1, 1⟩ ∧
      ((MinRootIteration.new 7 2 0 1).2.set 0 ⟨1, 1, 1, 1⟩ ≠ (MinRootIteration.new 7 2 0 1).2) ∧
      (MinRootCircuit.synthesize ((MinRootIteration.new 7 2 0 1).2.set 0 ⟨1, 1, 1, 1⟩)
        ⟨1, 0⟩ ⟨2, 1⟩ ⟨[1, 0, 1], []⟩).2.satisfied :=
  ⟨by decide, by decide, by decide⟩

/-! ## C10: nothing constrains the index variable to its bound value -/

/-- An alternative assignment for the slice's variables: give the index variable of
iteration `j` the arbitrary value `ι j`, and recompute every downstream value with
genuine fifth roots so that all constraints still hold. -/
def altAssign {p : ℕ} (e : ℕ) (ι : ℕ → ZMod p) : ℕ → ℕ → ZMod p → ZMod p → List (ZMod p)
  | 0, _, _, _ => []
  | n + 1, j, x, y =>
    [ι j, (x + y) ^ e, x + ι j, ((x + y) ^ e) * ((x + y) ^ e),
      (((x + y) ^ e) * ((x + y) ^ e)) * (((x + y) ^ e) * ((x + y) ^ e))] ++
      altAssign e ι n (j + 1) ((x + y) ^ e) (x + ι j)

theorem assignFun_append_left {p : ℕ} (B l : List (ZMod p)) (c : ℕ) (hc : c < B.length) :
    assignFun (B ++ l) c = B.getD c 0 := by
  unfold assignFun
  rw [List.getD_append _ _ _ _ hc]

theorem assignFun_append_block {p : ℕ} (B l : List (ZMod p)) (c : ℕ) :
    assignFun (B ++ l) (B.length + c) = l.getD c 0 := by
  unfold assignFun
  rw [List.getD_append_right _ _ _ _ (by omega)]
  congr 1
  omega

/-- The alternative assignment satisfies every constraint the encoder emits, whatever
the choice of index values `ι`. -/
theorem altAssign_sat {p : ℕ} (hp : Nat.Prime p) (h5 : p % 5 = 2) (hlt : 5 < p)
    (ι : ℕ → ZMod p) :
    ∀ (n j : ℕ) (B : List (ZMod p)) (xv yv : ℕ) (x y : ZMod p),
      B.getD 0 0 = 1 → xv < B.length → yv < B.length →
      B.getD xv 0 = x → B.getD yv 0 = y →
      satisfiedBy (assignFun (B ++ altAssign (minrootExp p) ι n j x y))
        (mkConstraints p B.length xv yv n) := by
  intro n
  induction n with
  | zero =>
    intro j B xv yv x y h1 hxv hyv hx hy c hc
    simp [mkConstraints] at hc
  | succ m ih =>
    intro j B xv yv x y h1 hxv hyv hx hy
    have hB0 : 0 < B.length := by omega
    simp only [altAssign, mkConstraints]
    intro c hc
    rcases List.mem_append.1 hc with hc | hc
    · have hblk : ∀ c0, assignFun (B ++
          ([ι j, (x + y) ^ minrootExp p, x + ι j,
              (x + y) ^ minrootExp p * (x + y) ^ minrootExp p,
              (x + y) ^ minrootExp p * (x + y) ^ minrootExp p *
                ((x + y) ^ minrootExp p * (x + y) ^ minrootExp p)] ++
            altAssign (minrootExp p) ι m (j + 1) ((x + y) ^ minrootExp p) (x + ι j)))
          (B.length + c0) =
          ([ι j, (x + y) ^ minrootExp p, x + ι j,
              (x + y) ^ minrootExp p * (x + y) ^ minrootExp p,
              (x + y) ^ minrootExp p * (x + y) ^ minrootExp p *
                ((x + y) ^ minrootExp p * (x + y) ^ minrootExp p)] ++
            altAssign (minrootExp p) ι m (j + 1) ((x + y) ^ minrootExp p) (x + ι j)).getD
            c0 0 :=
        fun c0 => assignFun_append_block B _ c0
      refine (mkBlock_sat_iff _ B.length xv yv).2 ⟨?_, ?_, ?_, ?_⟩ c hc
      · rw [hblk 1, hblk 3]
        rfl
      · rw [hblk 3, hblk 4]
        rfl
      · rw [hblk 4, hblk 1, assignFun_append_left _ _ xv hxv,
          assignFun_append_left _ _ yv hyv, hx, hy]
        show (x + y) ^ minrootExp p * (x + y) ^ minrootExp p *
            ((x + y) ^ minrootExp p * (x + y) ^ minrootExp p) * (x + y) ^ minrootExp p =
          x + y
        rw [show ∀ a : ZMod p, a * a * (a * a) * a = a ^ 5 from fun a => by ring]
        exact pow_minrootExp_pow_five hp h5 hlt _
      · have hL : assignFun (B ++
            ([ι j, (x + y) ^ minrootExp p, x + ι j,
                (x + y) ^ minrootExp p * (x + y) ^ minrootExp p,
                (x + y) ^ minrootExp p * (x + y) ^ minrootExp p *
                  ((x + y) ^ minrootExp p * (x + y) ^ minrootExp p)] ++
              altAssign (minrootExp p) ι m (j + 1) ((x + y) ^ minrootExp p) (x + ι j)))
            B.length = ι j := by
          have := hblk 0
          simpa using this
        rw [hblk 2, hL, assignFun_append_left _ _ xv hxv,
          assignFun_append_left _ _ 0 hB0, hx, h1]
        show 1 * (x + ι j) = x + ι j
        rw [one_mul]
    · rw [← List.append_assoc]
      have hlen : (B ++ [ι j, (x + y) ^ minrootExp p, x + ι j,
          (x + y) ^ minrootExp p * (x + y) ^ minrootExp p,
          (x + y) ^ minrootExp p * (x + y) ^ minrootExp p *
            ((x + y) ^ minrootExp p * (x + y) ^ minrootExp p)]).length = B.length + 5 := by
        simp
      have hih := ih (j + 1)
        (B ++ [ι j, (x + y) ^ minrootExp p, x + ι j,
          (x + y) ^ minrootExp p * (x + y) ^ minrootExp p,
          (x + y) ^ minrootExp p * (x + y) ^ minrootExp p *
            ((x + y) ^ minrootExp p * (x + y) ^ minrootExp p)])
        (B.length + 1) (B.length + 2) ((x + y) ^ minrootExp p) (x + ι j)
        (by rw [List.getD_append _ _ _ _ hB0]; exact h1)
        (by rw [hlen]; omega)
        (by rw [hlen]; omega)
        (by rw [List.getD_append_right _ _ _ _ (by omega)]
            have h2 : B.length + 1 - B.length = 1 := by omega
            rw [h2]
            rfl)
        (by rw [List.getD_append_right _ _ _ _ (by omega)]
            have h2 : B.length + 2 - B.length = 2 := by omega
            rw [h2]
            rfl)
      rw [hlen] at hih
      exact hih c hc

/-- The alternative assignment really gives iteration `j`'s index variable the value
`ι` prescribes. -/
theorem altAssign_getD_idx {p : ℕ} (e : ℕ) (ι : ℕ → ZMod p) :
    ∀ (j n s : ℕ) (x y : ZMod p), j < n →
      (altAssign e ι n s x y).getD (5 * j) 0 = ι (s + j) := by
  intro j
  induction j with
  | zero =>
    intro n s x y hj
    match n with
    | m + 1 => simp [altAssign]
  | succ k ih =>
    intro n s x y hj
    match n with
    | m + 1 =>
      simp only [altAssign]
      rw [List.getD_append_right _ _ _ _ (by simp)]
      have h5 : 5 * (k + 1) - [ι s, (x + y) ^ e, x + ι s, (x + y) ^ e * ((x + y) ^ e),
          (x + y) ^ e * ((x + y) ^ e) * ((x + y) ^ e * ((x + y) ^ e))].length = 5 * k := by
        simp
        omega
      rw [h5, ih m (s + 1) _ _ (by omega)]
      congr 1
      omega

/-- C10: for each iteration `j` of the slice, the index variable (variable `3 + 5j`) is
prover-supplied advice bound to `j + 1`, yet the emitted constraints admit a satisfying
assignment (with the constant-one variable still 1) giving it a different value. -/
theorem index_unconstrained {p : ℕ} (hp : Nat.Prime p) (h5 : p % 5 = 2) (hlt : 5 < p)
    (seq : List (MinRootIteration p)) (vx vy : ZMod p) (j : ℕ) (hj : j < seq.length) :
    assignFun ((MinRootCircuit.synthesize seq ⟨1, vx⟩ ⟨2, vy⟩ ⟨[1, vx, vy], []⟩).2.assign)
        (3 + 5 * j) = ((j + 1 : ℕ) : ZMod p) ∧
      ∃ f : ℕ → ZMod p, f 0 = 1 ∧
        satisfiedBy f ((MinRootCircuit.synthesize seq ⟨1, vx⟩ ⟨2, vy⟩
          ⟨[1, vx, vy], []⟩).2.constraints) ∧
        f (3 + 5 * j) ≠ ((j + 1 : ℕ) : ZMod p) := by
  constructor
  · rw [MinRootCircuit.synthesize, synthesizeGo_assign]
    rw [assignFun_big _ _ _ _ (by omega), show 3 + 5 * j - 3 = 5 * j from by omega,
      (mkAssign_getD j seq 0 hj).1]
    simp
  · refine ⟨assignFun ([1, vx, vy] ++
      altAssign (minrootExp p)
        (fun k => if k = j then ((j + 2 : ℕ) : ZMod p) else ((k + 1 : ℕ) : ZMod p))
        seq.length 0 vx vy), rfl, ?_, ?_⟩
    · rw [MinRootCircuit.synthesize, synthesizeGo_constraints]
      simp only [List.nil_append]
      have := altAssign_sat hp h5 hlt
        (fun k => if k = j then ((j + 2 : ℕ) : ZMod p) else ((k + 1 : ℕ) : ZMod p))
        seq.length 0 [1, vx, vy] 1 2 vx vy rfl (by simp) (by simp) rfl rfl
      simpa using this
    · rw [assignFun_big _ _ _ _ (by omega), show 3 + 5 * j - 3 = 5 * j from by omega,
        altAssign_getD_idx (minrootExp p) _ j seq.length 0 vx vy hj]
      simp only [Nat.zero_add, if_true]
      intro hcast
      rw [ZMod.natCast_eq_natCast_iff] at hcast
      have hdvd := (Nat.modEq_iff_dvd' (by omega : j + 1 ≤ j + 2)).1 hcast.symm
      have h1 : j + 2 - (j + 1) = 1 := by omega
      rw [h1] at hdvd
      have := Nat.le_of_dvd one_pos hdvd
      omega

theorem index_unconstrained_witness :
    assignFun ((MinRootCircuit.synthesize ((MinRootIteration.new 7 1 0 1).2) ⟨1, 0⟩ ⟨2, 1⟩
        ⟨[1, 0, 1], []⟩).2.assign) (3 + 5 * 0) = ((0 + 1 : ℕ) : ZMod 7) ∧
      ∃ f : ℕ → ZMod 7, f 0 = 1 ∧
        satisfiedBy f ((MinRootCircuit.synthesize ((MinRootIteration.new 7 1 0 1).2)
          ⟨1, 0⟩ ⟨2, 1⟩ ⟨[1, 0, 1], []⟩).2.constraints) ∧
        f (3 + 5 * 0) ≠ ((0 + 1 : ℕ) : ZMod 7) :=
  index_unconstrained (by norm_num) (by norm_num) (by norm_num)
    ((MinRootIteration.new 7 1 0 1).2) 0 1 0 (by decide)

end NovaMinRoot
